import Mathlib

/-!
Verification of a line-based set-algebra engine (union / intersection of the
lines of byte buffers, in insertion order).

Shallow embedding of src/src/main.rs:
* a byte is a `Nat` (only equality with the newline byte 10 matters),
* a `Buffer` is a list of bytes, a `Line` is a contiguous chunk of a buffer,
* an `IndexSet` (insertion-ordered hash set) is embedded as a duplicate-free
  list: `insert` appends a new element at the end and leaves the list
  unchanged when the element is already present; `retain` keeps, in order,
  the elements satisfying the predicate.
The owning set (`UnionSet = IndexSet<TextVec>`) and the borrowing set
(`SliceSet = IndexSet<&TextSlice>`) hold the same byte content and differ
only in memory ownership, so both are embedded as `List Line`.
-/

namespace SetOp

abbrev Byte := Nat

abbrev Buffer := List Byte

abbrev Line := List Byte

/-- the newline byte `b'\n'` that `Memchr::new(b'\n', text)` scans for. -/
def newline : Byte := 10

/-- the scanning loop of `LineSet::insert_all_lines`: `pending` is the bytes
of `text` consumed since the last line boundary (`text[begin..]` up to the
current position).  At each newline byte a line including that newline is
emitted (`text[begin..=end]`); at the end of the buffer the unconsumed bytes,
if any, form one final line (`if begin < text.len()`). -/
def splitLinesFrom : List Byte → List Byte → List Line
  | pending, [] => if pending = [] then [] else [pending]
  | pending, b :: rest =>
      if b = newline then (pending ++ [newline]) :: splitLinesFrom [] rest
      else splitLinesFrom (pending ++ [b]) rest

/-- the sequence of lines of a buffer, as produced by the boundary scan of
`LineSet::insert_all_lines`. -/
def splitLines (text : Buffer) : List Line := splitLinesFrom [] text

/-- embedding of `IndexSet::insert` (as used by `insert_line` of both
`SliceSet` and `UnionSet`): an already-present element is a no-op keeping
its position, a new element is appended at the end. -/
def insert_line (s : List Line) (line : Line) : List Line :=
  if line ∈ s then s else s ++ [line]

/-- embedding of `LineSet::insert_all_lines`: break `text` into lines and
insert each of them into `s`, in order. -/
def insert_all_lines (s : List Line) (text : Buffer) : List Line :=
  (splitLines text).foldl insert_line s

/-- embedding of `LineSet::init_from_slice`: insert every line of `text`
into the empty (default) set. -/
def init_from_slice (text : Buffer) : List Line :=
  insert_all_lines [] text

/-- embedding of `IndexSet::contains`, membership by byte content. -/
def contains (s : List Line) (x : Line) : Bool := decide (x ∈ s)

/-- embedding of `IndexSet::retain`: keep, in order, the elements for which
the predicate holds. -/
def retain (s : List Line) (p : Line → Bool) : List Line := s.filter p

/-- the operation names of the `OpName` enum. -/
inductive OpName
  | Union
  | Intersect
deriving DecidableEq

/-- embedding of `<UnionSet as SetExpression>::operate`: insert each line of
the subsequent operand into the accumulator. -/
def UnionSet.operate (s : List Line) (text : Buffer) : List Line :=
  insert_all_lines s text

/-- embedding of `<IntersectSet as SetExpression>::operate`: build a
transient `SliceSet` of the lines of the operand and retain in the
accumulator only the lines it contains. -/
def IntersectSet.operate (s : List Line) (text : Buffer) : List Line :=
  retain s (fun x => contains (init_from_slice text) x)

/-- the failure condition of the engine. -/
inductive CalcError
  | InvalidInput
deriving DecidableEq

/-- embedding of `do_calculation` together with `calculate_and_print`: the
first buffer seeds the accumulator (`texts.next().unwrap()` fails when the
buffer sequence is empty, before any output is produced), each remaining
buffer is folded in with the operation of the selected set kind, and the
resulting ordered line sequence is handed to the output (here: returned). -/
def do_calculation (op : OpName) (texts : List Buffer) :
    Except CalcError (List Line) :=
  match texts with
  | [] => .error .InvalidInput
  | t :: rest =>
      match op with
      | .Union => .ok (rest.foldl UnionSet.operate (init_from_slice t))
      | .Intersect => .ok (rest.foldl IntersectSet.operate (init_from_slice t))

/-- specification-side description of first-seen-order deduplication: keep
the first occurrence of each distinct element, in order. -/
def dedupKeepFirst : List Line → List Line
  | [] => []
  | l :: ls => l :: dedupKeepFirst (ls.filter (fun x => decide (x ≠ l)))
termination_by ls => ls.length
decreasing_by
  simp only [List.length_cons]
  exact Nat.lt_succ_of_le (List.length_filter_le _ _)

/-! ### Helper lemmas about the ordered set -/

theorem dedupKeepFirst_nil : dedupKeepFirst [] = [] := by
  rw [dedupKeepFirst]

theorem dedupKeepFirst_cons (l : Line) (ls : List Line) :
    dedupKeepFirst (l :: ls) =
      l :: dedupKeepFirst (ls.filter (fun x => decide (x ≠ l))) := by
  rw [dedupKeepFirst]

theorem insert_line_of_mem {s : List Line} {l : Line} (h : l ∈ s) :
    insert_line s l = s := by
  simp [insert_line, h]

theorem insert_line_of_not_mem {s : List Line} {l : Line} (h : l ∉ s) :
    insert_line s l = s ++ [l] := by
  simp [insert_line, h]

theorem mem_insert_line {s : List Line} {l x : Line} :
    x ∈ insert_line s l ↔ x ∈ s ∨ x = l := by
  by_cases h : l ∈ s
  · rw [insert_line_of_mem h]
    constructor
    · exact Or.inl
    · rintro (hx | rfl)
      · exact hx
      · exact h
  · rw [insert_line_of_not_mem h]
    simp [List.mem_append]

theorem mem_foldl_insert_line {x : Line} :
    ∀ (ls : List Line) (s : List Line),
      x ∈ List.foldl insert_line s ls ↔ x ∈ s ∨ x ∈ ls := by
  intro ls
  induction ls with
  | nil => simp
  | cons l ls ih =>
      intro s
      rw [List.foldl_cons, ih]
      rw [mem_insert_line]
      simp only [List.mem_cons]
      tauto

theorem foldl_insert_line_eq (ls : List Line) :
    ∀ (acc : List Line),
      List.foldl insert_line acc ls =
        acc ++ dedupKeepFirst (ls.filter (fun x => decide (x ∉ acc))) := by
  induction ls with
  | nil =>
      intro acc
      simp [dedupKeepFirst_nil]
  | cons l ls ih =>
      intro acc
      by_cases h : l ∈ acc
      · rw [List.foldl_cons, insert_line_of_mem h, ih, List.filter_cons]
        simp [h]
      · have hc : decide (l ∉ acc) = true := by simpa using h
        have key : List.filter (fun x => decide (x ∉ acc ++ [l])) ls =
            List.filter (fun x => decide (x ≠ l) && decide (x ∉ acc)) ls := by
          apply List.filter_congr
          intro x _
          simp [List.mem_append, not_or, and_comm]
        rw [List.foldl_cons, insert_line_of_not_mem h, ih, List.filter_cons,
          if_pos hc, dedupKeepFirst_cons, List.filter_filter, key,
          List.append_assoc, List.singleton_append]

theorem foldl_insert_line_nil (ls : List Line) :
    List.foldl insert_line [] ls = dedupKeepFirst ls := by
  rw [foldl_insert_line_eq]
  simp

theorem mem_dedupKeepFirst {x : Line} {ls : List Line} :
    x ∈ dedupKeepFirst ls ↔ x ∈ ls := by
  rw [← foldl_insert_line_nil, mem_foldl_insert_line]
  simp

theorem nodup_dedupKeepFirst : ∀ (ls : List Line), (dedupKeepFirst ls).Nodup
  | [] => by rw [dedupKeepFirst_nil]; exact List.nodup_nil
  | l :: ls => by
      rw [dedupKeepFirst_cons]
      refine List.nodup_cons.mpr ⟨?_, nodup_dedupKeepFirst _⟩
      intro hmem
      rw [mem_dedupKeepFirst, List.mem_filter] at hmem
      simpa using hmem.2
termination_by ls => ls.length
decreasing_by
  simp only [List.length_cons]
  exact Nat.lt_succ_of_le (List.length_filter_le _ _)

theorem mem_init_from_slice {x : Line} {text : Buffer} :
    x ∈ init_from_slice text ↔ x ∈ splitLines text := by
  unfold init_from_slice insert_all_lines
  rw [mem_foldl_insert_line]
  simp

theorem init_from_slice_eq (text : Buffer) :
    init_from_slice text = dedupKeepFirst (splitLines text) := by
  unfold init_from_slice insert_all_lines
  exact foldl_insert_line_nil _

theorem foldl_insert_line_of_subset :
    ∀ (ls : List Line) (s : List Line), (∀ x ∈ ls, x ∈ s) →
      List.foldl insert_line s ls = s := by
  intro ls
  induction ls with
  | nil => intro s _; rfl
  | cons l ls ih =>
      intro s h
      rw [List.foldl_cons, insert_line_of_mem (h l (List.mem_cons_self l ls))]
      exact ih s fun x hx => h x (List.mem_cons_of_mem l hx)

/-! ### Helper lemmas about the line splitter -/

theorem flatten_splitLinesFrom :
    ∀ (text pending : List Byte),
      (splitLinesFrom pending text).flatten = pending ++ text := by
  intro text
  induction text with
  | nil =>
      intro pending
      by_cases h : pending = [] <;> simp [splitLinesFrom, h]
  | cons b rest ih =>
      intro pending
      by_cases h : b = newline
      · subst h
        simp [splitLinesFrom, ih]
      · simp [splitLinesFrom, h, ih]

theorem splitLinesFrom_eq_nil_iff :
    ∀ (text pending : List Byte),
      splitLinesFrom pending text = [] ↔ pending = [] ∧ text = [] := by
  intro text
  induction text with
  | nil =>
      intro pending
      by_cases h : pending = [] <;> simp [splitLinesFrom, h]
  | cons b rest ih =>
      intro pending
      by_cases h : b = newline
      · subst h
        simp [splitLinesFrom]
      · rw [splitLinesFrom, if_neg h, ih]
        simp

theorem splitLinesFrom_no_newline :
    ∀ (text pending : List Byte), newline ∉ text →
      splitLinesFrom pending text =
        if pending ++ text = [] then [] else [pending ++ text] := by
  intro text
  induction text with
  | nil => intro pending _; simp [splitLinesFrom]
  | cons b rest ih =>
      intro pending h
      have hb : b ≠ newline := fun hb => h (hb ▸ List.mem_cons_self b rest)
      have hr : newline ∉ rest := fun hr => h (List.mem_cons_of_mem b hr)
      rw [splitLinesFrom, if_neg hb, ih _ hr]
      simp

theorem splitLinesFrom_shape :
    ∀ (text pending : List Byte), newline ∉ pending →
      ∀ l ∈ splitLinesFrom pending text, l ≠ [] ∧ newline ∉ l.dropLast := by
  intro text
  induction text with
  | nil =>
      intro pending hp l hl
      by_cases h : pending = []
      · rw [splitLinesFrom, if_pos h] at hl
        exact absurd hl (List.not_mem_nil l)
      · rw [splitLinesFrom, if_neg h] at hl
        rw [List.mem_singleton] at hl
        subst hl
        exact ⟨h, fun hm => hp ((List.dropLast_sublist l).mem hm)⟩
  | cons b rest ih =>
      intro pending hp l hl
      by_cases h : b = newline
      · subst h
        rw [splitLinesFrom, if_pos rfl] at hl
        rcases List.mem_cons.mp hl with hl | hl
        · subst hl
          refine ⟨by simp, ?_⟩
          rw [List.dropLast_concat]
          exact hp
        · exact ih [] (List.not_mem_nil newline) l hl
      · rw [splitLinesFrom, if_neg h] at hl
        refine ih (pending ++ [b]) ?_ l hl
        intro hm
        rcases List.mem_append.mp hm with hm | hm
        · exact hp hm
        · exact h ((List.mem_singleton.mp hm).symm)

theorem splitLinesFrom_dropLast_newline :
    ∀ (text pending : List Byte),
      ∀ l ∈ (splitLinesFrom pending text).dropLast,
        l.getLast? = some newline := by
  intro text
  induction text with
  | nil =>
      intro pending l hl
      by_cases h : pending = [] <;>
        simp [splitLinesFrom, h] at hl
  | cons b rest ih =>
      intro pending l hl
      by_cases h : b = newline
      · subst h
        rw [splitLinesFrom, if_pos rfl] at hl
        by_cases hr : splitLinesFrom [] rest = []
        · rw [hr] at hl
          simp at hl
        · rw [List.dropLast_cons_of_ne_nil hr] at hl
          rcases List.mem_cons.mp hl with hl | hl
          · subst hl
            exact List.getLast?_concat _
          · exact ih [] l hl
      · rw [splitLinesFrom, if_neg h] at hl
        exact ih (pending ++ [b]) l hl

theorem splitLinesFrom_getLast :
    ∀ (text pending : List Byte) (l : Line),
      (splitLinesFrom pending text).getLast? = some l →
      l.getLast? = (pending ++ text).getLast? := by
  intro text
  induction text with
  | nil =>
      intro pending l hl
      by_cases h : pending = []
      · rw [splitLinesFrom, if_pos h] at hl
        simp at hl
      · rw [splitLinesFrom, if_neg h] at hl
        simp at hl
        subst hl
        simp
  | cons b rest ih =>
      intro pending l hl
      by_cases h : b = newline
      · subst h
        rw [splitLinesFrom, if_pos rfl] at hl
        by_cases hr : splitLinesFrom [] rest = []
        · have hrest : rest = [] :=
            ((splitLinesFrom_eq_nil_iff rest []).mp hr).2
          subst hrest
          rw [hr] at hl
          simp at hl
          subst hl
          rfl
        · rcases List.exists_cons_of_ne_nil hr with ⟨t, ts, ht⟩
          rw [ht, List.getLast?_cons_cons, ← ht] at hl
          have hrest : rest ≠ [] := by
            intro hre
            subst hre
            exact hr rfl
          rcases List.exists_cons_of_ne_nil hrest with ⟨r, rs, hre⟩
          rw [ih [] l hl, List.nil_append,
            List.getLast?_append_of_ne_nil pending (by simp), hre,
            List.getLast?_cons_cons]
      · rw [splitLinesFrom, if_neg h] at hl
        have := ih (pending ++ [b]) l hl
        rw [this, List.append_assoc, List.singleton_append]

/-! ### Helper lemmas about the two fold operations -/

theorem foldl_intersect_operate :
    ∀ (rest : List Buffer) (s : List Line),
      List.foldl IntersectSet.operate s rest =
        s.filter (fun l => decide (∀ b ∈ rest, l ∈ splitLines b)) := by
  intro rest
  induction rest with
  | nil => intro s; simp
  | cons b rest ih =>
      intro s
      rw [List.foldl_cons, ih]
      simp only [IntersectSet.operate, retain, contains]
      rw [List.filter_filter]
      apply List.filter_congr
      intro x _
      simp [List.forall_mem_cons, mem_init_from_slice, and_comm, Bool.and_comm]

theorem foldl_union_operate :
    ∀ (bufs : List Buffer) (s : List Line),
      List.foldl UnionSet.operate s bufs =
        List.foldl insert_line s (bufs.map splitLines).flatten := by
  intro bufs
  induction bufs with
  | nil => intro s; rfl
  | cons b bufs ih =>
      intro s
      rw [List.foldl_cons, List.map_cons, List.flatten_cons, List.foldl_append]
      exact ih _

example : splitLines [97, 10, 98, 10] = [[97, 10], [98, 10]] := by decide
example : splitLines [97, 10, 98] = [[97, 10], [98]] := by decide
example : splitLines [] = [] := by decide
example : splitLines [97, 98] = [[97, 98]] := by decide
example : init_from_slice [97, 10, 97, 10, 98] = [[97, 10], [98]] := by decide
example : do_calculation .Intersect [[120], [120, 10]] = .ok [] := by rfl
example : do_calculation .Union [[120], [120, 10]] = .ok [[120], [120, 10]] := by
  rfl
example : dedupKeepFirst [[1], [2], [1], [3]] = [[1], [2], [3]] := by
  simp [dedupKeepFirst]

/-! ### Claim theorems -/

/-- Claim C1: for every sequence of at least two buffers (first buffer `t`,
nonempty tail `rest`; proved for every tail), the Intersect output is exactly
the lines of the first buffer whose content also occurs as a line in every
other buffer, each exactly once (the output has no duplicates), ordered by
first occurrence within the first buffer. -/
theorem intersect_first_buffer_filter (t : Buffer) (rest : List Buffer) :
    do_calculation OpName.Intersect (t :: rest) =
      Except.ok ((dedupKeepFirst (splitLines t)).filter
        (fun l => decide (∀ b ∈ rest, l ∈ splitLines b))) ∧
    ((dedupKeepFirst (splitLines t)).filter
        (fun l => decide (∀ b ∈ rest, l ∈ splitLines b))).Nodup := by
  constructor
  · show Except.ok (rest.foldl IntersectSet.operate (init_from_slice t)) = _
    rw [foldl_intersect_operate, init_from_slice_eq]
  · exact (nodup_dedupKeepFirst _).filter _

/-- Claim C2: for every non-empty sequence of buffers (first buffer `t`,
tail `rest`), the Union output is exactly the distinct lines appearing in at
least one buffer, each exactly once (no duplicates), ordered by first
occurrence scanning the buffers left-to-right and each buffer
top-to-bottom. -/
theorem union_first_seen_order (t : Buffer) (rest : List Buffer) :
    do_calculation OpName.Union (t :: rest) =
      Except.ok (dedupKeepFirst ((t :: rest).map splitLines).flatten) ∧
    (dedupKeepFirst ((t :: rest).map splitLines).flatten).Nodup := by
  constructor
  · show Except.ok (rest.foldl UnionSet.operate (init_from_slice t)) = _
    rw [foldl_union_operate]
    show Except.ok
        (List.foldl insert_line
          (List.foldl insert_line [] (splitLines t))
          (rest.map splitLines).flatten) = _
    rw [← List.foldl_append, List.map_cons, List.flatten_cons,
      foldl_insert_line_nil]
  · exact nodup_dedupKeepFirst _

/-- Claim C3: the line splitter yields the empty sequence on the empty
buffer; its lines concatenate back to the buffer exactly (full coverage, no
gaps, no overlaps); a nonempty buffer with no newline yields exactly one
line, the whole buffer; every produced line is nonempty and contains no
newline before its last byte; every line except the last ends with the
newline byte; and the last line ends with the newline byte exactly when the
buffer does (otherwise the remaining bytes form a final line without a
trailing newline). -/
theorem splitLines_spec :
    (splitLines [] = []) ∧
    (∀ text : Buffer, (splitLines text).flatten = text) ∧
    (∀ text : Buffer, text ≠ [] → newline ∉ text → splitLines text = [text]) ∧
    (∀ (text : Buffer) (l : Line), l ∈ splitLines text →
      l ≠ [] ∧ newline ∉ l.dropLast) ∧
    (∀ (text : Buffer) (l : Line), l ∈ (splitLines text).dropLast →
      l.getLast? = some newline) ∧
    (∀ (text : Buffer) (l : Line), (splitLines text).getLast? = some l →
      (l.getLast? = some newline ↔ text.getLast? = some newline)) := by
  refine ⟨rfl, ?_, ?_, ?_, ?_, ?_⟩
  · intro text
    exact flatten_splitLinesFrom text []
  · intro text ht hn
    rw [splitLines, splitLinesFrom_no_newline text [] hn]
    simp [ht]
  · intro text l hl
    exact splitLinesFrom_shape text [] (List.not_mem_nil newline) l hl
  · intro text l hl
    exact splitLinesFrom_dropLast_newline text [] l hl
  · intro text l hl
    rw [splitLinesFrom_getLast text [] l hl, List.nil_append]

/-- Claim C3 witness: the splitter evaluated on the concrete buffer
`[97, 98]`, discharging the nonemptiness and no-newline hypotheses there. -/
theorem splitLines_spec_witness :
    (splitLines [97, 98]).flatten = [97, 98] ∧
    splitLines [97, 98] = [[97, 98]] :=
  ⟨splitLines_spec.2.1 [97, 98],
   splitLines_spec.2.2.1 [97, 98] (by decide) (by decide)⟩

/-- Claim C4: given an empty buffer sequence, both Union and Intersect fail
with the InvalidInput condition and produce no output lines. -/
theorem empty_input_invalid (op : OpName) :
    do_calculation op [] = Except.error CalcError.InvalidInput := rfl

/-- Claim C5: for the insertion-ordered set shared by the owning and the
borrowing variant, re-inserting content that is already present neither adds
an entry nor moves any entry (the set is unchanged), and for every sequence
of insertions into an empty set the iteration order is the order of first
insertion of each distinct content, with no duplicates. -/
theorem ordered_set_insertion_invariant :
    (∀ (s : List Line) (l : Line), l ∈ s → insert_line s l = s) ∧
    (∀ ls : List Line, List.foldl insert_line [] ls = dedupKeepFirst ls) ∧
    (∀ ls : List Line, (List.foldl insert_line [] ls).Nodup) := by
  refine ⟨?_, foldl_insert_line_nil, ?_⟩
  · intro s l h
    exact insert_line_of_mem h
  · intro ls
    rw [foldl_insert_line_nil]
    exact nodup_dedupKeepFirst ls

/-- Claim C5 witness: re-inserting the already-present line `[1]` leaves a
concrete two-element set unchanged. -/
theorem ordered_set_insertion_invariant_witness :
    insert_line [[1], [2]] [1] = [[1], [2]] :=
  ordered_set_insertion_invariant.1 [[1], [2]] [1] (by decide)

/-- Claim C6: retain removes exactly the entries for which the predicate is
false (membership and multiplicity are kept exactly for surviving entries
and drop to zero otherwise) and what survives is a sublist of the original,
so the relative order of the surviving entries is preserved. -/
theorem retain_filters_in_order (s : List Line) (p : Line → Bool) :
    (retain s p).Sublist s ∧
    (∀ x : Line, x ∈ retain s p ↔ x ∈ s ∧ p x = true) ∧
    (∀ x : Line, (retain s p).count x =
      if p x = true then s.count x else 0) := by
  refine ⟨List.filter_sublist s, ?_, ?_⟩
  · intro x
    exact List.mem_filter
  · intro x
    by_cases h : p x = true
    · rw [if_pos h, retain, List.count_filter h]
    · rw [if_neg h, retain, List.count_eq_zero]
      intro hx
      exact h (List.mem_filter.mp hx).2

/-- Claim C7: given exactly one input buffer, Union and Intersect return the
same output, namely the distinct lines of that buffer in first-seen order
with duplicates collapsed to their first occurrence. -/
theorem single_operand_identity (t : Buffer) :
    do_calculation OpName.Union [t] = do_calculation OpName.Intersect [t] ∧
    do_calculation OpName.Union [t] =
      Except.ok (dedupKeepFirst (splitLines t)) := by
  constructor
  · rfl
  · show Except.ok (init_from_slice t) = _
    rw [init_from_slice_eq]

/-- Claim C8: inserting every line of a buffer into an empty ordered set
twice yields the same set as inserting once, and the resulting set has no
duplicate entries by content. -/
theorem insert_all_lines_idempotent (B : Buffer) :
    insert_all_lines (insert_all_lines [] B) B = insert_all_lines [] B ∧
    (insert_all_lines [] B).Nodup := by
  constructor
  · apply foldl_insert_line_of_subset
    intro x hx
    unfold insert_all_lines
    rw [mem_foldl_insert_line]
    exact Or.inr hx
  · show (List.foldl insert_line [] (splitLines B)).Nodup
    rw [foldl_insert_line_nil]
    exact nodup_dedupKeepFirst _

/-- Claim C9: the trailing newline is part of a line, so an unterminated
final line never equals the newline-terminated text: intersecting a first
buffer holding unterminated `x` (byte 120) with a buffer holding `x`
followed by a newline yields no lines, while their Union holds both as
separate entries; in general no line equals itself with a newline
appended. -/
theorem unterminated_line_distinct :
    do_calculation OpName.Intersect [[120], [120, 10]] = Except.ok [] ∧
    do_calculation OpName.Union [[120], [120, 10]] =
      Except.ok [[120], [120, 10]] ∧
    ∀ l : Line, l ≠ l ++ [newline] := by
  refine ⟨rfl, rfl, ?_⟩
  intro l h
  have := congrArg List.length h
  simp at this

/-- Claim C10: the computation is deterministic: for every operation and
every fixed non-empty buffer sequence, two runs on equal inputs produce
identical results, and the run succeeds with an output line sequence. -/
theorem calculation_deterministic (op : OpName) (ts1 ts2 : List Buffer)
    (hne : ts1 ≠ []) (heq : ts1 = ts2) :
    do_calculation op ts1 = do_calculation op ts2 ∧
    ∃ out, do_calculation op ts1 = Except.ok out := by
  subst heq
  refine ⟨rfl, ?_⟩
  match ts1, hne with
  | t :: rest, _ =>
      cases op
      · exact ⟨_, rfl⟩
      · exact ⟨_, rfl⟩

/-- Claim C10 witness: determinism instantiated on a concrete one-buffer
input. -/
theorem calculation_deterministic_witness :
    do_calculation OpName.Union [[97]] = do_calculation OpName.Union [[97]] ∧
    ∃ out, do_calculation OpName.Union [[97]] = Except.ok out :=
  calculation_deterministic OpName.Union [[97]] [[97]] (by decide) rfl

end SetOp
